import Mathlib

/-
Verification of the multi-resolution tile indexing and aggregation core of
ringsaturn/geo-agg-tile-index-example (src/main.go) against its specification.

The Go source is shallowly embedded as follows.
  * Go strings are lists of characters; the tile-key strings built by
    fmt.Sprintf and split by strings.Split are List Char.
  * The tile math (maptile.At, maptile.Tile.Center) lives in the external
    paulmach/orb library, which is not part of this repository's sources;
    those two functions are modelled from the spec (section 4.1), over real
    numbers in place of float64.  Definitions modelled this way carry a doc
    comment starting with "Modelled from the spec:".
  * Go functions that can panic (slice indexing without a bounds check) are
    embedded as Option-valued functions, none standing for the panic.
  * The MongoDB grouping pipeline issued by demo is modelled, per section 6
    of the spec, as the equivalent in-core grouping after a full scan.
-/

namespace GeoAggTile

/-- Zoom range constants (main.go lines 29-30). -/
def minZoom : ℕ := 0

/-- Zoom range constants (main.go lines 29-30). -/
def maxZoom : ℕ := 13

/-- Decimal digit characters of a natural number, accumulator style with fuel,
mirroring the decimal rendering Go's fmt uses for unsigned integers
(key formatting, main.go line 68). -/
def natCharsCore : ℕ → ℕ → List Char → List Char
  | 0, _, acc => acc
  | fuel + 1, n, acc =>
      if n < 10 then Char.ofNat (48 + n % 10) :: acc
      else natCharsCore fuel (n / 10) (Char.ofNat (48 + n % 10) :: acc)

/-- Decimal representation of a natural number as characters. -/
def natChars (n : ℕ) : List Char := natCharsCore (n + 1) n []

/-- The tile key fmt.Sprintf("%v-%v-%v", x, y, z) of main.go line 68. -/
def encodeKey (x y z : ℕ) : List Char :=
  natChars x ++ '-' :: (natChars y ++ '-' :: natChars z)

/-- strings.Split(s, "-") of main.go line 119, on character lists. -/
def splitOnDash : List Char → List (List Char)
  | [] => [[]]
  | c :: cs =>
      if c = '-' then [] :: splitOnDash cs
      else
        match splitOnDash cs with
        | [] => [[c]]
        | p :: ps => (c :: p) :: ps

/-- The digit test of strconv.ParseInt: ASCII code between 48 and 57. -/
def isDigitChar (c : Char) : Bool := 48 ≤ c.toNat && c.toNat ≤ 57

/-- The successful-parse fragment of strconv.ParseInt on the sign-free,
in-range digit strings the key encoder produces: none on the empty string
or a non-digit character, otherwise the decimal value.  The full ParseInt
semantics used by the aggregation decoder (leading sign, range clamping,
discarded error) is parseInt below. -/
def parseNat (cs : List Char) : Option ℕ :=
  if cs = [] then none
  else if cs.all isDigitChar then
    some (cs.foldl (fun s c => s * 10 + (c.toNat - 48)) 0)
  else none

/-- Key decoding as performed by FromRawStatsToGeoJSONFeatureItem
(main.go lines 119-123): split on the dash, read parts 0, 1, 2 (none models
the index panic when fewer than three parts exist), and require the three
parts to parse.  Failure of strconv is surfaced here as none; the error
discarding of the source is modelled separately in
FromRawStatsToGeoJSONFeatureItem. -/
def decodeKey (cs : List Char) : Option (ℕ × ℕ × ℕ) :=
  match (splitOnDash cs)[0]?, (splitOnDash cs)[1]?, (splitOnDash cs)[2]? with
  | some a, some b, some c =>
      match parseNat a, parseNat b, parseNat c with
      | some x, some y, some z => some (x, y, z)
      | _, _, _ => none
  | _, _, _ => none

/-- Modelled from the spec: TileMath.pointToTile (section 4.1).  The source
(main.go line 61) calls maptile.At from the external paulmach/orb library,
not part of this repository's sources.  n = 2^z, x = floor((lon+180)/360*n),
y = floor((1 - ln(tan latRad + 1/cos latRad)/pi)/2*n), both clamped to
[0, n-1], over real numbers in place of float64. -/
noncomputable def pointToTile (lon lat : ℝ) (z : ℕ) : ℕ × ℕ :=
  let n : ℕ := 2 ^ z
  let xRaw : ℤ := ⌊(lon + 180) / 360 * n⌋
  let latRad : ℝ := lat * Real.pi / 180
  let yRaw : ℤ := ⌊(1 - Real.log (Real.tan latRad + 1 / Real.cos latRad) / Real.pi) / 2 * n⌋
  ((max 0 (min ((n : ℤ) - 1) xRaw)).toNat, (max 0 (min ((n : ℤ) - 1) yRaw)).toNat)

/-- Modelled from the spec: TileMath.tileToCenter (section 4.1).  The source
(main.go lines 49 and 125) calls maptile.Tile.Center from the external orb
library.  Standard inverse Web-Mercator center of tile (x, y, z). -/
noncomputable def tileCenter (x y z : ℕ) : ℝ × ℝ :=
  ((((x : ℝ) + 1 / 2) / (2 : ℝ) ^ z) * 360 - 180,
   Real.arctan (Real.sinh (Real.pi * (1 - 2 * (((y : ℝ) + 1 / 2) / (2 : ℝ) ^ z)))) * 180 / Real.pi)

/-- GeoPoint (main.go lines 33-36). -/
structure GeoPoint where
  type : String
  coordinates : List ℝ

/-- Tile (main.go lines 38-42).  The unexported orbmaptile field caches the
orb tile, which carries its own (x, y, z) triple. -/
structure Tile where
  x : ℕ
  y : ℕ
  z : ℕ
  key : List Char
  orbmaptile : Option (ℕ × ℕ × ℕ)

/-- Tile.Center (main.go lines 44-50): fills the cache when empty, then
returns the cached tile's center.  Go mutates the receiver through a pointer;
here the updated tile is returned alongside the center. -/
noncomputable def Tile.center (t : Tile) : (ℝ × ℝ) × Tile :=
  match t.orbmaptile with
  | none => (tileCenter t.x t.y t.z, { t with orbmaptile := some (t.x, t.y, t.z) })
  | some (a, b, c) => (tileCenter a b c, t)

/-- Record (main.go lines 52-56); the opaque ObjectID is modelled as a
natural number. -/
structure Record where
  id : ℕ
  location : GeoPoint
  levels : List Tile

/-- The loop body of Record.SetLevels (main.go lines 61-70): the tile stored
for zoom z, with the cache preset to that very tile. -/
noncomputable def stackEntry (lon lat : ℝ) (z : ℕ) : Tile :=
  { x := (pointToTile lon lat z).1
    y := (pointToTile lon lat z).2
    z := z
    key := encodeKey (pointToTile lon lat z).1 (pointToTile lon lat z).2 z
    orbmaptile := some ((pointToTile lon lat z).1, (pointToTile lon lat z).2, z) }

/-- The stack-building loop of Record.SetLevels (main.go lines 59-71): one
tile per zoom from minZoom to maxZoom in increasing order (the spec's
buildStack, section 4.2). -/
noncomputable def buildStack (lon lat : ℝ) : List Tile :=
  (List.range (maxZoom - minZoom + 1)).map fun i => stackEntry lon lat (minZoom + i)

/-- Record.SetLevels (main.go lines 58-72).  The source reads Coordinates[0]
and Coordinates[1] with no length check and no error path; none models the
slice-index panic on a too-short coordinate list. -/
noncomputable def Record.SetLevels (r : Record) : Option Record :=
  match r.location.coordinates[0]?, r.location.coordinates[1]? with
  | some lon, some lat => some { r with levels := buildStack lon lat }
  | _, _ => none

/-- The unwind-and-match stages of the aggregation pipeline of demo
(main.go lines 154-159), per record: the keys of the record's level entries
at the requested zoom. -/
def tileKeysAt (r : Record) (z : ℕ) : List (List Char) :=
  (r.levels.filter fun t => t.z == z).map Tile.key

/-- Modelled from the spec: the grouping query input (sections 4.3 and 6).
The source delegates match, unwind and group to MongoDB (demo, main.go lines
149-187), an external collaborator; section 6 states that the core performing
the grouping itself after a full scan implements the same contract.  This is
the concatenation over all records of their keys at zoom z. -/
def tileMembershipsAt : List Record → ℕ → List (List Char)
  | [], _ => []
  | r :: rs, z => tileKeysAt r z ++ tileMembershipsAt rs z

/-- Modelled from the spec: the group stage (main.go lines 160-165): one
group per distinct key at the requested zoom, counting occurrences. -/
def aggregateByTileKey (rs : List Record) (z : ℕ) : List (List Char × ℕ) :=
  (tileMembershipsAt rs z).dedup.map fun k => (k, (tileMembershipsAt rs z).count k)

/-- A record has a tile membership at zoom z when some level entry carries z. -/
def hasTileAt (r : Record) (z : ℕ) : Bool := r.levels.any fun t => t.z == z

/-- The digit accumulation and int64-range handling of
strconv.ParseInt(s, 10, 64) after the optional sign has been removed: the
empty string or a non-digit character is a syntax error, value 0; a value at
or beyond the int64 cutoff 2^63 is clamped (MaxInt64 for positive, MinInt64
for negative), Go returning that clamped value together with ErrRange.  The
Bool is true exactly when Go returns a nil error. -/
def parseIntDigits (cs : List Char) (neg : Bool) : ℤ × Bool :=
  if cs = [] then (0, false)
  else if cs.all isDigitChar then
    let v : ℕ := cs.foldl (fun s c => s * 10 + (c.toNat - 48)) 0
    if neg then
      if 2 ^ 63 < v then (-(2 ^ 63 : ℤ), false) else (-(v : ℤ), true)
    else
      if 2 ^ 63 ≤ v then ((2 ^ 63 : ℤ) - 1, false) else ((v : ℤ), true)
  else (0, false)

/-- strconv.ParseInt(s, 10, 64) of the Go standard library, as called at
main.go lines 121-123: one optional leading plus or minus sign, then a
nonempty digit string; syntax errors yield 0 and out-of-range values are
clamped to the int64 limit, the Bool reporting whether the error was nil
(the source discards it). -/
def parseInt : List Char → ℤ × Bool
  | [] => (0, false)
  | c :: rest =>
      if c = '+' then parseIntDigits rest false
      else if c = '-' then parseIntDigits rest true
      else parseIntDigits (c :: rest) false

/-- RawStats (main.go lines 113-116): one group of the aggregation result. -/
structure RawStats where
  id : List Char
  count : ℤ

/-- GeoJSONFeatureItem (main.go lines 138-142), with the two properties the
source stores in its property map made explicit. -/
structure GeoJSONFeatureItem where
  type : String
  count : ℤ
  tileKey : List Char
  geometry : GeoPoint

/-- FromRawStatsToGeoJSONFeatureItem (main.go lines 118-136): split the key
on dashes, read parts 0, 1, 2 without a length check (none models the index
panic), parse each part with strconv.ParseInt DISCARDING the error (so a
syntactically invalid part becomes 0 and an out-of-range part becomes the
clamped int64 limit), convert each int64 to uint32 — truncation modulo 2^32,
the uint32(x), uint32(y), maptile.Zoom(z) conversions of line 124 — and emit
the feature for the center of the resulting tile. -/
noncomputable def FromRawStatsToGeoJSONFeatureItem (raw : RawStats) :
    Option GeoJSONFeatureItem :=
  match (splitOnDash raw.id)[0]?, (splitOnDash raw.id)[1]?, (splitOnDash raw.id)[2]? with
  | some xStr, some yStr, some zStr =>
      let x : ℤ := (parseInt xStr).1
      let y : ℤ := (parseInt yStr).1
      let z : ℤ := (parseInt zStr).1
      let xu : ℕ := (x % (2 ^ 32 : ℤ)).toNat
      let yu : ℕ := (y % (2 ^ 32 : ℤ)).toNat
      let zu : ℕ := (z % (2 ^ 32 : ℤ)).toNat
      some { type := "Feature"
             count := raw.count
             tileKey := raw.id
             geometry := { type := "Point"
                           coordinates := [(tileCenter xu yu zu).1, (tileCenter xu yu zu).2] } }
  | _, _, _ => none

/-- The character of a decimal digit has the digit's value offset by 48. -/
theorem digit_char_toNat {m : ℕ} (hm : m < 10) : (Char.ofNat (48 + m)).toNat = 48 + m := by
  interval_cases m <;> decide

/-- Core property of the decimal rendering: it appends a nonempty block of
digit characters whose Horner evaluation recovers the number. -/
theorem natCharsCore_spec :
    ∀ (fuel n : ℕ) (acc : List Char), n < fuel →
      ∃ ds : List Char, natCharsCore fuel n acc = ds ++ acc ∧ ds ≠ [] ∧
        (∀ c ∈ ds, 48 ≤ c.toNat ∧ c.toNat ≤ 57) ∧
        ∀ a : ℕ, ds.foldl (fun s c => s * 10 + (c.toNat - 48)) a = a * 10 ^ ds.length + n := by
  intro fuel
  induction fuel with
  | zero => intro n acc h; omega
  | succ fuel ih =>
      intro n acc h
      by_cases h10 : n < 10
      · refine ⟨[Char.ofNat (48 + n % 10)], ?_, by simp, ?_, ?_⟩
        · simp [natCharsCore, h10]
        · intro c hc
          simp only [List.mem_singleton] at hc
          subst hc
          rw [digit_char_toNat (Nat.mod_lt _ (by omega))]
          omega
        · intro a
          simp only [List.foldl_cons, List.foldl_nil, List.length_singleton, pow_one]
          rw [digit_char_toNat (Nat.mod_lt _ (by omega))]
          omega
      · have hdiv : n / 10 < fuel := by
          have h1 : n / 10 < n := Nat.div_lt_self (by omega) (by omega)
          omega
        obtain ⟨ds, heq, hne, hchars, hval⟩ :=
          ih (n / 10) (Char.ofNat (48 + n % 10) :: acc) hdiv
        refine ⟨ds ++ [Char.ofNat (48 + n % 10)], ?_, by simp, ?_, ?_⟩
        · simp only [natCharsCore, if_neg h10, heq, List.append_assoc, List.cons_append,
            List.nil_append]
        · intro c hc
          rcases List.mem_append.1 hc with hc | hc
          · exact hchars c hc
          · simp only [List.mem_singleton] at hc
            subst hc
            rw [digit_char_toNat (Nat.mod_lt _ (by omega))]
            omega
        · intro a
          rw [List.foldl_append, hval a]
          simp only [List.foldl_cons, List.foldl_nil, List.length_append,
            List.length_singleton]
          rw [digit_char_toNat (Nat.mod_lt _ (by omega))]
          have hpow : 10 ^ (ds.length + 1) = 10 ^ ds.length * 10 := pow_succ 10 ds.length
          have hmod : n % 10 + 10 * (n / 10) = n := Nat.mod_add_div n 10
          calc (a * 10 ^ ds.length + n / 10) * 10 + (48 + n % 10 - 48)
              = a * (10 ^ ds.length * 10) + (n % 10 + 10 * (n / 10)) := by ring_nf; omega
            _ = a * 10 ^ (ds.length + 1) + n := by rw [hpow, hmod]

/-- The decimal rendering of n is nonempty, consists of digit characters,
and Horner evaluation recovers n. -/
theorem natChars_spec (n : ℕ) :
    natChars n ≠ [] ∧ (∀ c ∈ natChars n, 48 ≤ c.toNat ∧ c.toNat ≤ 57) ∧
      (natChars n).foldl (fun s c => s * 10 + (c.toNat - 48)) 0 = n := by
  obtain ⟨ds, heq, hne, hchars, hval⟩ := natCharsCore_spec (n + 1) n [] (by omega)
  have hds : natChars n = ds := by simpa [natChars] using heq
  refine ⟨by rw [hds]; exact hne, by rw [hds]; exact hchars, ?_⟩
  rw [hds]
  simpa using hval 0

/-- Parsing the decimal rendering succeeds and returns the original number. -/
theorem parseNat_natChars (n : ℕ) : parseNat (natChars n) = some n := by
  obtain ⟨hne, hchars, hval⟩ := natChars_spec n
  unfold parseNat
  rw [if_neg hne, if_pos, hval]
  rw [List.all_eq_true]
  intro c hc
  have := hchars c hc
  simp only [isDigitChar, Bool.and_eq_true, decide_eq_true_eq]
  omega

/-- The dash separator is not a decimal digit character. -/
theorem dash_not_mem_natChars (n : ℕ) : '-' ∉ natChars n := by
  intro hmem
  have h := (natChars_spec n).2.1 _ hmem
  have h45 : ('-').toNat = 45 := by decide
  rw [h45] at h
  omega

/-- Splitting a dash-free block returns just that block. -/
theorem splitOnDash_of_not_mem {a : List Char} (h : '-' ∉ a) :
    splitOnDash a = [a] := by
  induction a with
  | nil => rfl
  | cons c cs ih =>
      have hc : c ≠ '-' := fun hc => h (hc ▸ List.mem_cons_self c cs)
      have hcs : '-' ∉ cs := fun hm => h (List.mem_cons_of_mem c hm)
      simp only [splitOnDash, if_neg hc, ih hcs]

/-- Splitting past a leading dash-free block peels it off. -/
theorem splitOnDash_append {a : List Char} (rest : List Char) (h : '-' ∉ a) :
    splitOnDash (a ++ '-' :: rest) = a :: splitOnDash rest := by
  induction a with
  | nil =>
      simp [splitOnDash]
  | cons c cs ih =>
      have hc : c ≠ '-' := fun hc => h (hc ▸ List.mem_cons_self c cs)
      have hcs : '-' ∉ cs := fun hm => h (List.mem_cons_of_mem c hm)
      simp only [List.cons_append, splitOnDash, List.append_eq, if_neg hc, ih hcs]

/-- Splitting a generated key recovers the three decimal blocks. -/
theorem splitOnDash_encodeKey (x y z : ℕ) :
    splitOnDash (encodeKey x y z) = [natChars x, natChars y, natChars z] := by
  unfold encodeKey
  rw [splitOnDash_append _ (dash_not_mem_natChars x),
    splitOnDash_append _ (dash_not_mem_natChars y),
    splitOnDash_of_not_mem (dash_not_mem_natChars z)]

/-- Decoding a generated key returns the original coordinates. -/
theorem decodeKey_encodeKey (x y z : ℕ) : decodeKey (encodeKey x y z) = some (x, y, z) := by
  unfold decodeKey
  rw [splitOnDash_encodeKey]
  simp [parseNat_natChars]

/-- C4: The tile-key encoding is a bijective, lossless encoding of
(x, y, z): decoding the generated key (splitting on the separator and
parsing the three parts) yields back exactly the original coordinates, and
no two distinct tile coordinates, including at different zoom levels,
produce the same key. -/
theorem tileKey_lossless (x y z : ℕ) (hx : x < 2 ^ z) (hy : y < 2 ^ z) :
    decodeKey (encodeKey x y z) = some (x, y, z) ∧
    ∀ x2 y2 z2 : ℕ, x2 < 2 ^ z2 → y2 < 2 ^ z2 →
      encodeKey x y z = encodeKey x2 y2 z2 → x = x2 ∧ y = y2 ∧ z = z2 := by
  refine ⟨decodeKey_encodeKey x y z, ?_⟩
  intro x2 y2 z2 _ _ heq
  have h2 := decodeKey_encodeKey x2 y2 z2
  rw [← heq, decodeKey_encodeKey] at h2
  simp only [Option.some.injEq, Prod.mk.injEq] at h2
  exact ⟨h2.1, h2.2.1, h2.2.2⟩

/-- Witness for tileKey_lossless at x = 1, y = 2, z = 2. -/
theorem tileKey_lossless_witness :
    (1 : ℕ) < 2 ^ 2 ∧ (2 : ℕ) < 2 ^ 2 ∧ decodeKey (encodeKey 1 2 2) = some (1, 2, 2) :=
  ⟨by decide, by decide, (tileKey_lossless 1 2 2 (by decide) (by decide)).1⟩

/-- The clamp in pointToTile keeps both coordinates below 2^z, for every
input whatsoever. -/
theorem pointToTile_lt (lon lat : ℝ) (z : ℕ) :
    (pointToTile lon lat z).1 < 2 ^ z ∧ (pointToTile lon lat z).2 < 2 ^ z := by
  have hN : 1 ≤ 2 ^ z := Nat.one_le_two_pow
  simp only [pointToTile]
  constructor <;> omega

/-- C3: For every point with longitude in [-180, 180] and latitude in
[-85.05, 85.05] and every zoom z, the computed tile satisfies
0 ≤ x < 2^z and 0 ≤ y < 2^z (the lower bound is inherent in the ℕ-valued
result); in particular at the boundary values the result is clamped into
[0, 2^z - 1] rather than being out of range or infinite. -/
theorem pointToTile_in_range (lon lat : ℝ) (z : ℕ)
    (h1 : -180 ≤ lon) (h2 : lon ≤ 180) (h3 : -85.05 ≤ lat) (h4 : lat ≤ 85.05) :
    (pointToTile lon lat z).1 < 2 ^ z ∧ (pointToTile lon lat z).2 < 2 ^ z :=
  pointToTile_lt lon lat z

/-- Witness for pointToTile_in_range at the boundary point
(lon, lat) = (180, 85.05) and z = 3. -/
theorem pointToTile_in_range_witness :
    ((-180 : ℝ) ≤ 180 ∧ (180 : ℝ) ≤ 180 ∧ (-85.05 : ℝ) ≤ 85.05 ∧ (85.05 : ℝ) ≤ 85.05) ∧
    (pointToTile 180 85.05 3).1 < 2 ^ 3 ∧ (pointToTile 180 85.05 3).2 < 2 ^ 3 :=
  ⟨⟨by norm_num, by norm_num, by norm_num, by norm_num⟩,
   pointToTile_in_range 180 85.05 3 (by norm_num) (by norm_num) (by norm_num) (by norm_num)⟩

/-- C5 counterexample: at the out-of-range point lon = 200, lat = 100,
SetLevels does not fail with any error: it returns the full 14-entry stack,
so stack construction has no InvalidCoordinate failure mode. -/
theorem setLevels_no_invalidCoordinate :
    (Record.SetLevels
        { id := 0, location := { type := "Point", coordinates := [200, 100] }, levels := [] }).map
      (fun r => r.levels.length) = some 14 := by
  rfl

/-- C5 amended: stack construction never fails on coordinate values: for
every longitude and latitude, valid or not, the full stack of
maxZoom - minZoom + 1 tiles is produced, and out-of-range values are
silently clamped into [0, 2^z - 1] by the tile math rather than rejected. -/
theorem buildStack_total_clamped (lon lat : ℝ) :
    (buildStack lon lat).length = maxZoom - minZoom + 1 ∧
    ∀ t ∈ buildStack lon lat, t.x < 2 ^ t.z ∧ t.y < 2 ^ t.z := by
  constructor
  · simp [buildStack]
  · intro t ht
    simp only [buildStack, List.mem_map] at ht
    obtain ⟨i, _, rfl⟩ := ht
    simpa [stackEntry] using pointToTile_lt lon lat (minZoom + i)

/-- Witness for buildStack_total_clamped at the invalid point (200, 100)
and the stack entry for zoom 0. -/
theorem buildStack_total_clamped_witness :
    stackEntry 200 100 (minZoom + 0) ∈ buildStack 200 100 ∧
    (stackEntry 200 100 (minZoom + 0)).x < 2 ^ (stackEntry 200 100 (minZoom + 0)).z ∧
    (stackEntry 200 100 (minZoom + 0)).y < 2 ^ (stackEntry 200 100 (minZoom + 0)).z := by
  have hm : stackEntry 200 100 (minZoom + 0) ∈ buildStack 200 100 := by
    unfold buildStack
    exact List.mem_map_of_mem _ (List.mem_range.2 (by norm_num))
  exact ⟨hm, (buildStack_total_clamped 200 100).2 _ hm⟩

/-- C9: For every Record whose coordinate slice has at least two elements,
SetLevels performs only in-bounds accesses and completes without a panic,
returning the record with the full stack and the other fields intact. -/
theorem setLevels_inbounds (r : Record) (h : 2 ≤ r.location.coordinates.length) :
    ∃ r2 : Record, Record.SetLevels r = some r2 ∧ r2.id = r.id ∧
      r2.location = r.location ∧ r2.levels.length = maxZoom - minZoom + 1 := by
  obtain ⟨lon, h0⟩ : ∃ a, r.location.coordinates[0]? = some a := by
    cases e : r.location.coordinates[0]? with
    | none => rw [List.getElem?_eq_none_iff] at e; omega
    | some a => exact ⟨a, rfl⟩
  obtain ⟨lat, h1⟩ : ∃ a, r.location.coordinates[1]? = some a := by
    cases e : r.location.coordinates[1]? with
    | none => rw [List.getElem?_eq_none_iff] at e; omega
    | some a => exact ⟨a, rfl⟩
  refine ⟨{ r with levels := buildStack lon lat }, ?_, rfl, rfl, by simp [buildStack]⟩
  unfold Record.SetLevels
  rw [h0, h1]

/-- Witness for setLevels_inbounds on a record with a two-element
coordinate slice. -/
theorem setLevels_inbounds_witness :
    ∃ r2 : Record,
      Record.SetLevels
          { id := 0, location := { type := "Point", coordinates := [1, 2] }, levels := [] }
        = some r2 ∧
      r2.id = (0 : ℕ) ∧
      r2.location = { type := "Point", coordinates := [1, 2] } ∧
      r2.levels.length = maxZoom - minZoom + 1 :=
  setLevels_inbounds _ (by decide)

@[simp] theorem stackEntry_x (lon lat : ℝ) (z : ℕ) :
    (stackEntry lon lat z).x = (pointToTile lon lat z).1 := rfl

@[simp] theorem stackEntry_y (lon lat : ℝ) (z : ℕ) :
    (stackEntry lon lat z).y = (pointToTile lon lat z).2 := rfl

@[simp] theorem stackEntry_z (lon lat : ℝ) (z : ℕ) : (stackEntry lon lat z).z = z := rfl

@[simp] theorem stackEntry_key (lon lat : ℝ) (z : ℕ) :
    (stackEntry lon lat z).key
      = encodeKey (pointToTile lon lat z).1 (pointToTile lon lat z).2 z := rfl

/-- C1: For every point with valid coordinates, the stack produced by the
SetLevels loop has length maxZoom - minZoom + 1, is strictly increasing in
z, and the entry at position i carries zoom minZoom + i, the Web-Mercator
tile of the point at that zoom, and the key formatted from that x, y, z. -/
theorem setLevels_stack_spec (lon lat : ℝ)
    (h1 : -180 ≤ lon) (h2 : lon ≤ 180) (h3 : -85.05 ≤ lat) (h4 : lat ≤ 85.05) :
    (buildStack lon lat).length = maxZoom - minZoom + 1 ∧
    (buildStack lon lat).Pairwise (fun s t => s.z < t.z) ∧
    ∀ (i : ℕ) (hi : i < (buildStack lon lat).length),
      ((buildStack lon lat).get ⟨i, hi⟩).z = minZoom + i ∧
      ((buildStack lon lat).get ⟨i, hi⟩).x = (pointToTile lon lat (minZoom + i)).1 ∧
      ((buildStack lon lat).get ⟨i, hi⟩).y = (pointToTile lon lat (minZoom + i)).2 ∧
      ((buildStack lon lat).get ⟨i, hi⟩).key
        = encodeKey (pointToTile lon lat (minZoom + i)).1
            (pointToTile lon lat (minZoom + i)).2 (minZoom + i) := by
  refine ⟨by simp [buildStack], ?_, ?_⟩
  · rw [buildStack, List.pairwise_map]
    exact (List.pairwise_lt_range _).imp (by intro a b hab; simpa using hab)
  · intro i hi
    simp only [buildStack, List.get_eq_getElem, List.getElem_map, List.getElem_range,
      stackEntry_x, stackEntry_y, stackEntry_z, stackEntry_key]
    exact ⟨trivial, trivial, trivial, trivial⟩

/-- Witness for setLevels_stack_spec at the valid point (0, 0). -/
theorem setLevels_stack_spec_witness :
    (buildStack 0 0).length = maxZoom - minZoom + 1 :=
  (setLevels_stack_spec 0 0 (by norm_num) (by norm_num) (by norm_num) (by norm_num)).1

/-- Nesting of the clamped floor projection: dividing the tile coordinate at
the deeper zoom by 2^(z2 - z1) recovers the coordinate at the shallower
zoom, for every real fraction u. -/
theorem clamp_floor_nested (u : ℝ) {z1 z2 : ℕ} (hz : z1 ≤ z2) :
    (max 0 (min (((2 ^ z2 : ℕ) : ℤ) - 1) ⌊u * ((2 ^ z2 : ℕ) : ℝ)⌋)).toNat / 2 ^ (z2 - z1)
      = (max 0 (min (((2 ^ z1 : ℕ) : ℤ) - 1) ⌊u * ((2 ^ z1 : ℕ) : ℝ)⌋)).toNat := by
  set k := z2 - z1 with hkdef
  have hk : z2 = z1 + k := by omega
  have hN1 : 1 ≤ 2 ^ z1 := Nat.one_le_two_pow
  have hN2 : 1 ≤ 2 ^ z2 := Nat.one_le_two_pow
  have hK : 1 ≤ 2 ^ k := Nat.one_le_two_pow
  rcases lt_or_le u 0 with hu | hu
  · have f2 : ⌊u * ((2 ^ z2 : ℕ) : ℝ)⌋ < 0 := by
      rw [Int.floor_lt]
      push_cast
      exact mul_neg_of_neg_of_pos hu (by positivity)
    have f1 : ⌊u * ((2 ^ z1 : ℕ) : ℝ)⌋ < 0 := by
      rw [Int.floor_lt]
      push_cast
      exact mul_neg_of_neg_of_pos hu (by positivity)
    have e2 : (max 0 (min (((2 ^ z2 : ℕ) : ℤ) - 1) ⌊u * ((2 ^ z2 : ℕ) : ℝ)⌋)).toNat = 0 := by
      omega
    have e1 : (max 0 (min (((2 ^ z1 : ℕ) : ℤ) - 1) ⌊u * ((2 ^ z1 : ℕ) : ℝ)⌋)).toNat = 0 := by
      omega
    rw [e2, e1, Nat.zero_div]
  · rcases lt_or_le u 1 with hu1 | hu1
    · have fnn : ∀ z : ℕ, 0 ≤ ⌊u * ((2 ^ z : ℕ) : ℝ)⌋ := fun z =>
        Int.floor_nonneg.2 (by positivity)
      have flt : ∀ z : ℕ, ⌊u * ((2 ^ z : ℕ) : ℝ)⌋ < (2 ^ z : ℤ) := by
        intro z
        rw [Int.floor_lt]
        push_cast
        exact mul_lt_of_lt_one_left (by positivity) hu1
      have e2 : (max 0 (min (((2 ^ z2 : ℕ) : ℤ) - 1) ⌊u * ((2 ^ z2 : ℕ) : ℝ)⌋)).toNat
          = ⌊u * ((2 ^ z2 : ℕ) : ℝ)⌋.toNat := by
        have h1 := fnn z2
        have h2 := flt z2
        have hc : ((2 ^ z2 : ℕ) : ℤ) = 2 ^ z2 := by push_cast; ring
        omega
      have e1 : (max 0 (min (((2 ^ z1 : ℕ) : ℤ) - 1) ⌊u * ((2 ^ z1 : ℕ) : ℝ)⌋)).toNat
          = ⌊u * ((2 ^ z1 : ℕ) : ℝ)⌋.toNat := by
        have h1 := fnn z1
        have h2 := flt z1
        have hc : ((2 ^ z1 : ℕ) : ℤ) = 2 ^ z1 := by push_cast; ring
        omega
      rw [e2, e1, Int.floor_toNat, Int.floor_toNat]
      have harg : u * ((2 ^ z2 : ℕ) : ℝ) = u * ((2 ^ z1 : ℕ) : ℝ) * ((2 ^ k : ℕ) : ℝ) := by
        push_cast
        rw [hk, pow_add]
        ring
      rw [harg]
      have hdiv := Nat.floor_div_nat (u * ((2 ^ z1 : ℕ) : ℝ) * ((2 ^ k : ℕ) : ℝ)) (2 ^ k)
      have hcancel : u * ((2 ^ z1 : ℕ) : ℝ) * ((2 ^ k : ℕ) : ℝ) / ((2 ^ k : ℕ) : ℝ)
          = u * ((2 ^ z1 : ℕ) : ℝ) := by
        field_simp
      rw [hcancel] at hdiv
      exact hdiv.symm
    · have fge : ∀ z : ℕ, (2 ^ z : ℤ) ≤ ⌊u * ((2 ^ z : ℕ) : ℝ)⌋ := by
        intro z
        rw [Int.le_floor]
        push_cast
        exact le_mul_of_one_le_left (by positivity) hu1
      have e2 : (max 0 (min (((2 ^ z2 : ℕ) : ℤ) - 1) ⌊u * ((2 ^ z2 : ℕ) : ℝ)⌋)).toNat
          = 2 ^ z2 - 1 := by
        have h1 := fge z2
        have hc2 : ((2 ^ z2 : ℕ) : ℤ) = 2 ^ z2 := by push_cast; ring
        omega
      have e1 : (max 0 (min (((2 ^ z1 : ℕ) : ℤ) - 1) ⌊u * ((2 ^ z1 : ℕ) : ℝ)⌋)).toNat
          = 2 ^ z1 - 1 := by
        have h1 := fge z1
        have hc1 : ((2 ^ z1 : ℕ) : ℤ) = 2 ^ z1 := by push_cast; ring
        omega
      rw [e2, e1]
      obtain ⟨b, hb⟩ : ∃ b, 2 ^ z1 = b + 1 := ⟨2 ^ z1 - 1, by omega⟩
      have hsub : 2 ^ z1 - 1 = b := by omega
      have hsplit : 2 ^ z2 - 1 = 2 ^ k * (2 ^ z1 - 1) + (2 ^ k - 1) := by
        have h2 : 2 ^ z2 = 2 ^ k * (b + 1) := by rw [hk, pow_add, ← hb, Nat.mul_comm]
        rw [h2, hsub, Nat.mul_succ]
        omega
      rw [hsplit, Nat.mul_add_div (by omega)]
      rw [Nat.div_eq_of_lt (by omega)]
      omega

/-- C7: For every valid point and every pair of zoom levels z1 < z2, the
point's tile at z2 is nested inside its tile at z1: integer division of the
z2 coordinates by 2^(z2 - z1) yields the z1 coordinates. -/
theorem pointToTile_nested (lon lat : ℝ) (z1 z2 : ℕ)
    (h1 : -180 ≤ lon) (h2 : lon ≤ 180) (h3 : -85.05 ≤ lat) (h4 : lat ≤ 85.05)
    (hz : z1 < z2) :
    (pointToTile lon lat z2).1 / 2 ^ (z2 - z1) = (pointToTile lon lat z1).1 ∧
    (pointToTile lon lat z2).2 / 2 ^ (z2 - z1) = (pointToTile lon lat z1).2 := by
  constructor
  · simpa only [pointToTile] using clamp_floor_nested ((lon + 180) / 360) hz.le
  · simpa only [pointToTile] using
      clamp_floor_nested
        ((1 - Real.log (Real.tan (lat * Real.pi / 180)
            + 1 / Real.cos (lat * Real.pi / 180)) / Real.pi) / 2) hz.le

/-- Witness for pointToTile_nested at the point (0, 0) with z1 = 1, z2 = 2. -/
theorem pointToTile_nested_witness :
    (pointToTile 0 0 2).1 / 2 ^ (2 - 1) = (pointToTile 0 0 1).1 ∧
    (pointToTile 0 0 2).2 / 2 ^ (2 - 1) = (pointToTile 0 0 1).2 :=
  pointToTile_nested 0 0 1 2 (by norm_num) (by norm_num) (by norm_num) (by norm_num)
    (by norm_num)

/-- C8: Stack construction is deterministic: in this pure embedding the
stack is a function of the coordinates alone, so any two records carrying
the same coordinates receive identical stacks; and the New York City point
(-73.99, 40.73) has exactly one stack entry at zoom 12, whose (x, y) pair
is the pointToTile value at that zoom, the same on every evaluation. -/
theorem setLevels_deterministic (r1 r2 : Record)
    (h : r1.location.coordinates = r2.location.coordinates) :
    (Record.SetLevels r1).map Record.levels = (Record.SetLevels r2).map Record.levels ∧
    ((buildStack (-73.99) 40.73).filter fun t => t.z == 12).map (fun t => (t.x, t.y))
      = [pointToTile (-73.99) 40.73 12] := by
  constructor
  · unfold Record.SetLevels
    rw [h]
    cases r2.location.coordinates[0]? <;> cases r2.location.coordinates[1]? <;> rfl
  · rw [buildStack, List.filter_map]
    have hf : ((List.range (maxZoom - minZoom + 1)).filter
        ((fun t => t.z == 12) ∘ fun i => stackEntry (-73.99) 40.73 (minZoom + i))) = [12] := by
      decide
    rw [hf]
    simp [minZoom, Prod.mk.eta]

/-- Witness for setLevels_deterministic: two records that differ only in
their identifier but share the NYC coordinates get equal stacks. -/
theorem setLevels_deterministic_witness :
    (Record.SetLevels { id := 0, location := { type := "Point", coordinates := [-73.99, 40.73] }, levels := [] }).map Record.levels
      = (Record.SetLevels { id := 1, location := { type := "Point", coordinates := [-73.99, 40.73] }, levels := [] }).map Record.levels :=
  (setLevels_deterministic _ _ rfl).1

/-- C10: Tile.Center mutates only the cached projection field — x, y, z and
key are always unchanged — and whenever the cache is unset or holds the
tile's own (x, y, z), as for every tile built by SetLevels, the returned
center is determined solely by (x, y, z) and a repeated call returns the
same center and the same tile. -/
theorem center_frame_cached (t : Tile) :
    ((t.center).2.x = t.x ∧ (t.center).2.y = t.y ∧ (t.center).2.z = t.z ∧
      (t.center).2.key = t.key) ∧
    (t.orbmaptile = none ∨ t.orbmaptile = some (t.x, t.y, t.z) →
      (t.center).1 = tileCenter t.x t.y t.z ∧ ((t.center).2).center = t.center) := by
  obtain ⟨x, y, z, key, cache⟩ := t
  cases cache with
  | none => exact ⟨⟨rfl, rfl, rfl, rfl⟩, fun _ => ⟨rfl, rfl⟩⟩
  | some p =>
      obtain ⟨a, b, c⟩ := p
      refine ⟨⟨rfl, rfl, rfl, rfl⟩, fun h => ?_⟩
      rcases h with h | h
      · exact absurd h (by simp)
      · obtain ⟨ha, hb, hc⟩ : a = x ∧ b = y ∧ c = z := by simpa using h
        subst ha
        subst hb
        subst hc
        exact ⟨rfl, rfl⟩

/-- Witness for center_frame_cached on a tile with an empty cache. -/
theorem center_frame_cached_witness :
    (Tile.center { x := 1, y := 2, z := 3, key := [], orbmaptile := none }).1
        = tileCenter 1 2 3 ∧
    ((Tile.center { x := 1, y := 2, z := 3, key := [], orbmaptile := none }).2).center
        = Tile.center { x := 1, y := 2, z := 3, key := [], orbmaptile := none } :=
  (center_frame_cached _).2 (Or.inl rfl)

/-- The filter of a built stack at zoom z keeps exactly the one entry for z
when z is in range, and nothing otherwise. -/
theorem buildStack_filter (lon lat : ℝ) (z : ℕ) :
    (buildStack lon lat).filter (fun t => t.z == z)
      = if z < maxZoom - minZoom + 1 then [stackEntry lon lat z] else [] := by
  rw [buildStack, List.filter_map]
  have h1 : ((List.range (maxZoom - minZoom + 1)).filter
      ((fun t => t.z == z) ∘ fun i => stackEntry lon lat (minZoom + i)))
      = (List.range (maxZoom - minZoom + 1)).filter (fun i => i == z) := by
    apply List.filter_congr
    intro i _
    simp [minZoom]
  rw [h1, List.filter_beq]
  rcases lt_or_le z (maxZoom - minZoom + 1) with hlt | hge
  · rw [List.count_eq_one_of_mem (List.nodup_range _) (List.mem_range.2 hlt)]
    rw [if_pos hlt]
    simp [minZoom]
  · rw [List.count_eq_zero_of_not_mem (by rw [List.mem_range]; omega)]
    rw [if_neg (by omega)]
    rfl

/-- An indexed record contributes exactly one key at a zoom it has
membership at, and none elsewhere: no double counting at a single zoom. -/
theorem tileKeysAt_length (r : Record) (lon lat : ℝ) (hr : r.levels = buildStack lon lat)
    (z : ℕ) :
    (tileKeysAt r z).length = if hasTileAt r z = true then 1 else 0 := by
  rcases lt_or_le z (maxZoom - minZoom + 1) with hlt | hge
  · have hmem : hasTileAt r z = true := by
      rw [hasTileAt, hr, List.any_eq_true]
      refine ⟨stackEntry lon lat z, ?_, by simp⟩
      have : stackEntry lon lat z ∈ (buildStack lon lat).filter (fun t => t.z == z) := by
        rw [buildStack_filter, if_pos hlt]
        exact List.mem_singleton_self _
      exact List.mem_of_mem_filter this
    rw [tileKeysAt, hr, buildStack_filter, if_pos hlt, hmem, if_pos rfl]
    rfl
  · have hmem : hasTileAt r z = false := by
      rw [hasTileAt, hr, List.any_eq_false]
      intro t ht hp
      simp only [buildStack, List.mem_map] at ht
      obtain ⟨i, hi, rfl⟩ := ht
      rw [List.mem_range] at hi
      simp only [stackEntry_z, beq_iff_eq] at hp
      have hmin : minZoom = 0 := rfl
      have hmax : maxZoom = 13 := rfl
      omega
    rw [tileKeysAt, hr, buildStack_filter, if_neg (by omega), hmem]
    rfl

/-- Over indexed records, the total number of key occurrences at zoom z is
the number of records with membership at z. -/
theorem memberships_length (rs : List Record) (z : ℕ)
    (h : ∀ r ∈ rs, ∃ lon lat, r.levels = buildStack lon lat) :
    (tileMembershipsAt rs z).length = (rs.filter fun r => hasTileAt r z).length := by
  induction rs with
  | nil => rfl
  | cons r rs ih =>
      obtain ⟨lon, lat, hr⟩ := h r (List.mem_cons_self r rs)
      have hrest := ih fun q hq => h q (List.mem_cons_of_mem r hq)
      rw [tileMembershipsAt, List.length_append, hrest, List.filter_cons,
        tileKeysAt_length r lon lat hr z]
      by_cases hb : hasTileAt r z = true
      · rw [if_pos hb, if_pos (by rw [hb])]
        simp [Nat.add_comm]
      · rw [if_neg hb, if_neg (by simpa using hb)]
        simp

/-- List.count does not depend on which of the two definitionally different
equality tests for keys is used. -/
theorem count_instances (a : List Char) (l : List (List Char)) :
    l.count a = @List.count (List Char) instBEqOfDecidableEq a l := by
  induction l with
  | nil => rfl
  | cons b t ih =>
      rw [List.count_cons, @List.count_cons (List Char) instBEqOfDecidableEq a b t, ih]
      by_cases hba : b = a <;> simp [hba]

/-- Summing the per-key multiplicities over the distinct keys of a list
recovers its length. -/
theorem sum_count_dedup (l : List (List Char)) :
    (l.dedup.map fun a => l.count a).sum = l.length := by
  have h := Multiset.toFinset_sum_count_eq (l : Multiset (List Char))
  rw [Finset.sum] at h
  simp only [Multiset.toFinset, Multiset.coe_dedup, Multiset.map_coe, Multiset.coe_count,
    Multiset.coe_card] at h
  rw [← h]
  congr 1
  apply List.map_congr_left
  intro a ha
  exact count_instances a l

/-- C2: For a fixed zoom and any list of indexed records, the aggregation
produces one count per distinct tile key present at that zoom, and the sum
of all counts equals the number of records that have a tile membership at
that zoom — no record is counted more than once at a single zoom. -/
theorem aggregate_count_conservation (rs : List Record) (z : ℕ)
    (h : ∀ r ∈ rs, ∃ lon lat, r.levels = buildStack lon lat) :
    ((aggregateByTileKey rs z).map Prod.fst).Nodup ∧
    (∀ k, k ∈ (aggregateByTileKey rs z).map Prod.fst ↔ k ∈ tileMembershipsAt rs z) ∧
    ((aggregateByTileKey rs z).map Prod.snd).sum
      = (rs.filter fun r => hasTileAt r z).length := by
  have hfst : (Prod.fst ∘ fun k => (k, (tileMembershipsAt rs z).count k)) = id := rfl
  refine ⟨?_, ?_, ?_⟩
  · rw [aggregateByTileKey, List.map_map, hfst, List.map_id]
    exact List.nodup_dedup _
  · intro k
    rw [aggregateByTileKey, List.map_map, hfst, List.map_id]
    exact List.mem_dedup
  · rw [aggregateByTileKey, List.map_map]
    have hsnd : (Prod.snd ∘ fun k => (k, (tileMembershipsAt rs z).count k))
        = fun k => (tileMembershipsAt rs z).count k := rfl
    rw [hsnd, sum_count_dedup, memberships_length rs z h]

/-- Witness for aggregate_count_conservation on a one-record list at
zoom 12. -/
theorem aggregate_count_conservation_witness :
    ((aggregateByTileKey [{ id := 0, location := { type := "Point", coordinates := [0, 0] }, levels := buildStack 0 0 }] 12).map Prod.snd).sum
      = ([{ id := 0, location := { type := "Point", coordinates := [0, 0] }, levels := buildStack 0 0 }].filter fun r => hasTileAt r 12).length :=
  (aggregate_count_conservation _ 12 (by
    intro r hr
    rw [List.mem_singleton] at hr
    subst hr
    exact ⟨0, 0, rfl⟩)).2.2

/-- C6 counterexample: the system decodes the malformed key "a-b-c" without
any MalformedKey failure: ParseInt's syntax errors are silently discarded,
every component becomes 0, and a feature for tile (0, 0, 0) is emitted. -/
theorem fromRawStats_emits_default_feature :
    FromRawStatsToGeoJSONFeatureItem { id := ['a', '-', 'b', '-', 'c'], count := 5 }
      = some ⟨"Feature", 5, ['a', '-', 'b', '-', 'c'],
          ⟨"Point", [(tileCenter 0 0 0).1, (tileCenter 0 0 0).2]⟩⟩ := by
  rfl

/-- C6 amended: key decoding aborts (with a slice-index panic, not a
MalformedKey error) exactly when the key has fewer than three dash-separated
parts; with at least three parts no failure is ever reported: each of the
first three parts is parsed by strconv.ParseInt with the error discarded —
a syntactically invalid part yields 0, an out-of-range part the clamped
int64 limit — the values are truncated to uint32 as at main.go line 124,
and a feature for the resulting tile is emitted, parts beyond the third
being ignored. -/
theorem fromRawStats_behavior (raw : RawStats) :
    (FromRawStatsToGeoJSONFeatureItem raw = none ↔ (splitOnDash raw.id).length < 3) ∧
    ∀ p0 p1 p2 : List Char,
      (splitOnDash raw.id)[0]? = some p0 →
      (splitOnDash raw.id)[1]? = some p1 →
      (splitOnDash raw.id)[2]? = some p2 →
      FromRawStatsToGeoJSONFeatureItem raw = some
        ⟨"Feature", raw.count, raw.id,
          ⟨"Point", [
            (tileCenter (((parseInt p0).1 % (2 ^ 32 : ℤ)).toNat)
              (((parseInt p1).1 % (2 ^ 32 : ℤ)).toNat)
              (((parseInt p2).1 % (2 ^ 32 : ℤ)).toNat)).1,
            (tileCenter (((parseInt p0).1 % (2 ^ 32 : ℤ)).toNat)
              (((parseInt p1).1 % (2 ^ 32 : ℤ)).toNat)
              (((parseInt p2).1 % (2 ^ 32 : ℤ)).toNat)).2]⟩⟩ := by
  have hsome3 : ∀ p0 p1 p2 : List Char,
      (splitOnDash raw.id)[0]? = some p0 →
      (splitOnDash raw.id)[1]? = some p1 →
      (splitOnDash raw.id)[2]? = some p2 →
      FromRawStatsToGeoJSONFeatureItem raw = some
        ⟨"Feature", raw.count, raw.id,
          ⟨"Point", [
            (tileCenter (((parseInt p0).1 % (2 ^ 32 : ℤ)).toNat)
              (((parseInt p1).1 % (2 ^ 32 : ℤ)).toNat)
              (((parseInt p2).1 % (2 ^ 32 : ℤ)).toNat)).1,
            (tileCenter (((parseInt p0).1 % (2 ^ 32 : ℤ)).toNat)
              (((parseInt p1).1 % (2 ^ 32 : ℤ)).toNat)
              (((parseInt p2).1 % (2 ^ 32 : ℤ)).toNat)).2]⟩⟩ := by
    intro p0 p1 p2 h0 h1 h2
    unfold FromRawStatsToGeoJSONFeatureItem
    rw [h0, h1, h2]
  refine ⟨⟨?_, ?_⟩, hsome3⟩
  · intro hnone
    by_contra hlen
    obtain ⟨p0, e0⟩ : ∃ a, (splitOnDash raw.id)[0]? = some a := by
      cases e : (splitOnDash raw.id)[0]? with
      | none => rw [List.getElem?_eq_none_iff] at e; omega
      | some a => exact ⟨a, rfl⟩
    obtain ⟨p1, e1⟩ : ∃ a, (splitOnDash raw.id)[1]? = some a := by
      cases e : (splitOnDash raw.id)[1]? with
      | none => rw [List.getElem?_eq_none_iff] at e; omega
      | some a => exact ⟨a, rfl⟩
    obtain ⟨p2, e2⟩ : ∃ a, (splitOnDash raw.id)[2]? = some a := by
      cases e : (splitOnDash raw.id)[2]? with
      | none => rw [List.getElem?_eq_none_iff] at e; omega
      | some a => exact ⟨a, rfl⟩
    rw [hsome3 p0 p1 p2 e0 e1 e2] at hnone
    cases hnone
  · intro hlen
    have e2 : (splitOnDash raw.id)[2]? = none := List.getElem?_eq_none (by omega)
    unfold FromRawStatsToGeoJSONFeatureItem
    rw [e2]
    cases (splitOnDash raw.id)[0]? <;> cases (splitOnDash raw.id)[1]? <;> rfl

/-- Witness for fromRawStats_behavior: a one-part key aborts; the key
"+5-1-2", whose first part Go parses as 5 thanks to the leading plus sign,
emits the feature for tile (5, 1, 2); and the key
"99999999999999999999-0-1", whose first part overflows int64, is clamped to
MaxInt64 and truncated to uint32, emitting the feature for tile
(4294967295, 0, 1). -/
theorem fromRawStats_behavior_witness :
    FromRawStatsToGeoJSONFeatureItem { id := ['x'], count := 1 } = none ∧
    FromRawStatsToGeoJSONFeatureItem { id := ['+', '5', '-', '1', '-', '2'], count := 3 }
      = some ⟨"Feature", 3, ['+', '5', '-', '1', '-', '2'],
          ⟨"Point", [(tileCenter 5 1 2).1, (tileCenter 5 1 2).2]⟩⟩ ∧
    FromRawStatsToGeoJSONFeatureItem
        { id := natChars 99999999999999999999 ++ '-' :: '0' :: '-' :: '1' :: [], count := 4 }
      = some ⟨"Feature", 4, natChars 99999999999999999999 ++ '-' :: '0' :: '-' :: '1' :: [],
          ⟨"Point", [(tileCenter 4294967295 0 1).1, (tileCenter 4294967295 0 1).2]⟩⟩ :=
  ⟨(fromRawStats_behavior { id := ['x'], count := 1 }).1.2 (by decide),
   (fromRawStats_behavior { id := ['+', '5', '-', '1', '-', '2'], count := 3 }).2
     ['+', '5'] ['1'] ['2'] rfl rfl rfl,
   (fromRawStats_behavior
       { id := natChars 99999999999999999999 ++ '-' :: '0' :: '-' :: '1' :: [], count := 4 }).2
     (natChars 99999999999999999999) ['0'] ['1'] (by rfl) (by rfl) (by rfl)⟩

end GeoAggTile
